import Mathlib

/-!
Verification of the Ising-model Monte Carlo simulator
(`src/IsingModel.py`, `src/IsingPlotter.py`).

The lattice state is embedded shallowly: the numpy spin grid becomes a
total function `ℤ → ℤ → ℤ` (only indices in `[0, rows) × [0, cols)` are
ever read or written, always through the same index expressions the
Python code uses, with Python's `%` on ints modelled by `Int.emod`,
which agrees with it for positive modulus).  Energies are exact
integers in the source (spins are `±1` ints), so `total_E` is carried
in `ℚ` (the single `/ 2.0` of `get_total_E`) and all arithmetic is
exact.  Randomness is made explicit: the chosen sites, the Metropolis
uniform draw and the `np.random.randint` draws are parameters of the
corresponding functions.
-/

set_option maxHeartbeats 1000000

/-- State of `IsingModel`: grid dimensions (`self.size`), temperature
(`self.temp`), the spin grid (`self.lattice`) and the incrementally
maintained total energy attribute (`self.total_E`). -/
@[ext]
structure IsingState where
  rows : ℕ
  cols : ℕ
  temp : ℚ
  spin : ℤ → ℤ → ℤ
  total_E : ℚ

/-- `IsingModel.pbc`: periodic boundary conditions,
`(indices[0] % self.size[0], indices[1] % self.size[1])`. -/
def pbc (L : IsingState) (p : ℤ × ℤ) : ℤ × ℤ :=
  (p.1 % (L.rows : ℤ), p.2 % (L.cols : ℤ))

/-- Reading `self.lattice[p]` at an (already reduced) index pair. -/
def latticeAt (L : IsingState) (p : ℤ × ℤ) : ℤ :=
  L.spin p.1 p.2

/-- `IsingModel.get_dE`: energy change if the spin at `(i, j)` were
flipped, `2 * lattice[i,j] * (sum of the four pbc neighbours)`. -/
def get_dE (L : IsingState) (i j : ℤ) : ℤ :=
  2 * L.spin i j *
    (latticeAt L (pbc L (i - 1, j)) + latticeAt L (pbc L (i + 1, j))
      + latticeAt L (pbc L (i, j - 1)) + latticeAt L (pbc L (i, j + 1)))

/-- `IsingModel.unit_E`: single-site energy,
`- lattice[i,j] * (sum of the four pbc neighbours)`. -/
def unit_E (L : IsingState) (i j : ℤ) : ℤ :=
  -L.spin i j *
    (latticeAt L (pbc L (i - 1, j)) + latticeAt L (pbc L (i + 1, j))
      + latticeAt L (pbc L (i, j - 1)) + latticeAt L (pbc L (i, j + 1)))

/-- The accumulator of `IsingModel.get_total_E` before the final
division: `total_E += unit_E((i, j))` over the whole grid. -/
def total_E_sum (L : IsingState) : ℤ :=
  ∑ i in Finset.range L.rows, ∑ j in Finset.range L.cols, unit_E L i j

/-- `IsingModel.get_total_E`: the accumulated site energies divided by
`2.0` (each bond counted once per endpoint). -/
def get_total_E (L : IsingState) : ℚ :=
  (total_E_sum L : ℚ) / 2

/-- Writing `self.lattice[i, j] = v` (a single-site numpy store). -/
def setSpin (L : IsingState) (i j v : ℤ) : IsingState :=
  { L with spin := fun a b => if a = i ∧ b = j then v else L.spin a b }

/-- The `ini == "u"` branch of `IsingModel.build_lattice` (together
with `__init__`): an all-spins-up grid whose `total_E` is then
computed from scratch by `get_total_E`. -/
def build_lattice_u (rows cols : ℕ) (temp : ℚ) : IsingState :=
  let L : IsingState :=
    { rows := rows, cols := cols, temp := temp, spin := fun _ _ => 1, total_E := 0 }
  { L with total_E := get_total_E L }

/-- `IsingModel.glauber`.  The randomly chosen site `(i, j)` (drawn by
`np.random.randint(0, size)` in the source) and the Boolean outcome of
the `self.metropolis(dE)` call are passed in explicitly.  On
acceptance the spin is flipped (`*= -1`) and `total_E += dE`. -/
def glauber (L : IsingState) (i j : ℕ) (outcome : Bool) : IsingState :=
  let dE := get_dE L i j
  if outcome then
    { setSpin L i j (L.spin i j * -1) with total_E := L.total_E + (dE : ℚ) }
  else
    L

/-- `IsingModel.kawasaki`.  The two randomly chosen sites and the
Metropolis outcome are explicit parameters.  The returned Boolean
records whether the `self.metropolis(dE)` call (and hence its random
draw) happened at all: the whole body is guarded by
`lattice[indices_1] != lattice[indices_2]`.  Inside the guard the
combined delta is computed by flipping site 1, evaluating site 2's
delta on the perturbed grid, and flipping site 1 back, exactly as in
the source. -/
def kawasaki (L : IsingState) (i1 j1 i2 j2 : ℕ) (outcome : Bool) :
    IsingState × Bool :=
  if L.spin i1 j1 ≠ L.spin i2 j2 then
    let dE_1 := get_dE L i1 j1
    let Lhyp := setSpin L i1 j1 (-1 * L.spin i1 j1)
    let dE_2 := get_dE Lhyp i2 j2
    let Lres := setSpin Lhyp i1 j1 (-1 * Lhyp.spin i1 j1)
    let dE := dE_1 + dE_2
    if outcome then
      let La := setSpin Lres i1 j1 (Lres.spin i1 j1 * -1)
      let Lb := setSpin La i2 j2 (La.spin i2 j2 * -1)
      ({ Lb with total_E := Lres.total_E + (dE : ℚ) }, true)
    else
      (Lres, true)
  else
    (L, false)

/-- `np.sum(self.lattice)`: the total spin of the grid. -/
def gridSum (L : IsingState) : ℤ :=
  ∑ i in Finset.range L.rows, ∑ j in Finset.range L.cols, L.spin i j

/-- `IsingModel.get_abs_M`: `abs(np.sum(self.lattice))`. -/
def get_abs_M (L : IsingState) : ℤ :=
  |gridSum L|

@[simp] lemma setSpin_rows (L : IsingState) (i j v : ℤ) :
    (setSpin L i j v).rows = L.rows := rfl

@[simp] lemma setSpin_cols (L : IsingState) (i j v : ℤ) :
    (setSpin L i j v).cols = L.cols := rfl

@[simp] lemma setSpin_temp (L : IsingState) (i j v : ℤ) :
    (setSpin L i j v).temp = L.temp := rfl

@[simp] lemma setSpin_total_E (L : IsingState) (i j v : ℤ) :
    (setSpin L i j v).total_E = L.total_E := rfl

lemma setSpin_spin (L : IsingState) (i j v a b : ℤ) :
    (setSpin L i j v).spin a b = if a = i ∧ b = j then v else L.spin a b := rfl

@[simp] lemma pbc_setSpin (L : IsingState) (i j v : ℤ) (p : ℤ × ℤ) :
    pbc (setSpin L i j v) p = pbc L p := rfl

/-- Flipping the same site twice restores the state exactly (this is
the flip-back in the middle of `kawasaki`). -/
lemma restore_cancel (L : IsingState) (i j : ℤ) :
    setSpin (setSpin L i j (-1 * L.spin i j)) i j
      (-1 * (setSpin L i j (-1 * L.spin i j)).spin i j) = L := by
  ext a b
  · rfl
  · rfl
  · rfl
  · simp only [setSpin_spin]
    by_cases h : a = i ∧ b = j
    · obtain ⟨rfl, rfl⟩ := h
      simp
    · simp [setSpin, h]
  · rfl

/-! ### Claim C9: 2x2 uniform-up lattice has `total_E = -8` -/

/-- C9: a 2×2 lattice built with the uniform-up configuration
(`ini = "u"`) has `total_E` exactly `-8` immediately after
construction. -/
theorem two_by_two_uniform_up_total_E :
    (build_lattice_u 2 2 1).total_E = -8 := by
  norm_num [build_lattice_u, get_total_E, total_E_sum, unit_E, get_dE, latticeAt, pbc,
    Finset.sum_range_succ]

/-! ### Claim C6: Kawasaki on equal spins is a no-op without a draw -/

/-- C6: whenever `kawasaki` picks two sites carrying equal spins — in
particular whenever the two chosen sites coincide — the call leaves
the state completely unchanged (no spin changes, `total_E` unchanged)
and the Metropolis draw is not consumed (the returned flag is
`false`). -/
theorem kawasaki_equal_spin_noop :
    (∀ (L : IsingState) (i1 j1 i2 j2 : ℕ) (outcome : Bool),
        L.spin i1 j1 = L.spin i2 j2 →
          kawasaki L i1 j1 i2 j2 outcome = (L, false)) ∧
      (∀ (L : IsingState) (i j : ℕ) (outcome : Bool),
        kawasaki L i j i j outcome = (L, false)) := by
  constructor
  · intro L i1 j1 i2 j2 outcome h
    rw [kawasaki, if_neg (not_not.mpr h)]
  · intro L i j outcome
    rw [kawasaki, if_neg (not_not.mpr rfl)]

/-- Witness for C6 at a concrete input: on the uniform-up 2×2 lattice
the sites `(0,0)` and `(1,1)` carry equal spins, and the call is the
identity with no draw consumed. -/
theorem kawasaki_equal_spin_noop_witness :
    (build_lattice_u 2 2 1).spin 0 0 = (build_lattice_u 2 2 1).spin 1 1 ∧
      kawasaki (build_lattice_u 2 2 1) 0 0 1 1 true = (build_lattice_u 2 2 1, false) :=
  ⟨rfl, kawasaki_equal_spin_noop.1 (build_lattice_u 2 2 1) 0 0 1 1 true rfl⟩

/-! ### Infrastructure for the incremental-energy invariant -/

lemma sub_emod_left_cancel (x d R : ℤ) : (x % R - d) % R = (x - d) % R := by
  rw [Int.sub_emod, Int.emod_emod_of_dvd x dvd_rfl, ← Int.sub_emod]

lemma add_emod_left_cancel (x d R : ℤ) : (x % R + d) % R = (x + d) % R := by
  rw [Int.add_emod, Int.emod_emod_of_dvd x dvd_rfl, ← Int.add_emod]

lemma solve_shift {R : ℕ} {d x k : ℤ} (hx0 : 0 ≤ x) (hxR : x < (R : ℤ))
    (h : (x + d) % (R : ℤ) = k) : x = (k - d) % (R : ℤ) := by
  have h1 : (k - d) % (R : ℤ) = (x + d - d) % (R : ℤ) := by
    rw [← h, sub_emod_left_cancel]
  rw [h1, add_sub_cancel_right, Int.emod_eq_of_lt hx0 hxR]

lemma emod_toNat_cast {R : ℕ} (hR : 0 < R) (x : ℤ) :
    (((x % (R : ℤ)).toNat : ℤ)) = x % (R : ℤ) :=
  Int.toNat_of_nonneg (Int.emod_nonneg x (by exact_mod_cast hR.ne'))

lemma emod_toNat_lt {R : ℕ} (hR : 0 < R) (x : ℤ) : (x % (R : ℤ)).toNat < R := by
  have h1 := emod_toNat_cast hR x
  have h2 : x % (R : ℤ) < (R : ℤ) := Int.emod_lt_of_pos x (by exact_mod_cast hR)
  omega

lemma add_pm_one_emod_ne {R k : ℕ} (hR : 2 ≤ R) (hk : k < R) {d : ℤ}
    (hd : d = 1 ∨ d = -1) : ((k : ℤ) + d) % (R : ℤ) ≠ (k : ℤ) := by
  rcases hd with rfl | rfl
  · by_cases h : k + 1 < R
    · rw [Int.emod_eq_of_lt (by omega) (by exact_mod_cast h)]
      omega
    · have hkR : (k : ℤ) + 1 = (R : ℤ) := by omega
      rw [hkR, Int.emod_self]
      omega
  · by_cases h : 1 ≤ k
    · rw [Int.emod_eq_of_lt (by omega) (by omega)]
      omega
    · have hk0 : (k : ℤ) = 0 := by omega
      rw [hk0]
      have h3 : ((0 : ℤ) + -1 + (R : ℤ) * 1) % (R : ℤ) = ((0 : ℤ) + -1) % (R : ℤ) := by
        rw [Int.add_mul_emod_self_left]
      have h4 : ((0 : ℤ) + -1) % (R : ℤ) = (R : ℤ) - 1 := by
        rw [← h3, Int.emod_eq_of_lt (by omega) (by omega)]
        ring
      rw [h4]
      omega

/-- The index grid `[0, rows) × [0, cols)` the Python loops range over. -/
def grid (R C : ℕ) : Finset (ℕ × ℕ) := Finset.range R ×ˢ Finset.range C

/-- Directed-bond sum: for a fixed offset `(di, dj)` the sum over all
sites of `spin(site) * spin(pbc(site + offset))`.  `total_E_sum` is
the negated sum of the four such sums (one per neighbour direction). -/
def dirSum (L : IsingState) (di dj : ℤ) : ℤ :=
  ∑ p in grid L.rows L.cols,
    L.spin p.1 p.2 * latticeAt L (pbc L ((p.1 : ℤ) + di, (p.2 : ℤ) + dj))

lemma mem_grid {R C : ℕ} {p : ℕ × ℕ} :
    p ∈ grid R C ↔ p.1 < R ∧ p.2 < C := by
  simp [grid, Finset.mem_product]

/-- How one directed-bond sum changes when one in-range site is
overwritten: only the term at the site itself and the term at the
site's preimage under the offset change. -/
lemma dirSum_setSpin (L : IsingState) (k l : ℕ) (v di dj : ℤ)
    (hk : k < L.rows) (hl : l < L.cols)
    (hfwd : pbc L ((k : ℤ) + di, (l : ℤ) + dj) ≠ ((k : ℤ), (l : ℤ)))
    (hback : ((((k : ℤ) - di) % (L.rows : ℤ)).toNat,
              (((l : ℤ) - dj) % (L.cols : ℤ)).toNat) ≠ (k, l)) :
    dirSum (setSpin L k l v) di dj
      = dirSum L di dj + (v - L.spin k l) *
          (latticeAt L (pbc L ((k : ℤ) + di, (l : ℤ) + dj))
            + latticeAt L (pbc L ((k : ℤ) - di, (l : ℤ) - dj))) := by
  have hR : 0 < L.rows := lt_of_le_of_lt (Nat.zero_le k) hk
  have hC : 0 < L.cols := lt_of_le_of_lt (Nat.zero_le l) hl
  set b1 : ℕ := (((k : ℤ) - di) % (L.rows : ℤ)).toNat with hb1
  set b2 : ℕ := (((l : ℤ) - dj) % (L.cols : ℤ)).toNat with hb2
  have hb1c : ((b1 : ℤ)) = ((k : ℤ) - di) % (L.rows : ℤ) := emod_toNat_cast hR _
  have hb2c : ((b2 : ℤ)) = ((l : ℤ) - dj) % (L.cols : ℤ) := emod_toNat_cast hC _
  -- the difference of the two sums, termwise
  have hsplit : dirSum (setSpin L k l v) di dj - dirSum L di dj
      = ∑ p in grid L.rows L.cols,
          ((setSpin L k l v).spin p.1 p.2 *
              latticeAt (setSpin L k l v) (pbc L ((p.1 : ℤ) + di, (p.2 : ℤ) + dj))
            - L.spin p.1 p.2 * latticeAt L (pbc L ((p.1 : ℤ) + di, (p.2 : ℤ) + dj))) := by
    rw [dirSum, dirSum]
    simp only [setSpin_rows, setSpin_cols, pbc_setSpin]
    rw [← Finset.sum_sub_distrib]
  set F : ℕ × ℕ → ℤ := fun p =>
    (setSpin L k l v).spin p.1 p.2 *
        latticeAt (setSpin L k l v) (pbc L ((p.1 : ℤ) + di, (p.2 : ℤ) + dj))
      - L.spin p.1 p.2 * latticeAt L (pbc L ((p.1 : ℤ) + di, (p.2 : ℤ) + dj)) with hF
  have hsubset : ({(k, l), (b1, b2)} : Finset (ℕ × ℕ)) ⊆ grid L.rows L.cols := by
    intro p hp
    rcases Finset.mem_insert.mp hp with rfl | hp2
    · exact mem_grid.mpr ⟨hk, hl⟩
    · rw [Finset.mem_singleton] at hp2
      subst hp2
      exact mem_grid.mpr ⟨emod_toNat_lt hR _, emod_toNat_lt hC _⟩
  have hvanish : ∀ p ∈ grid L.rows L.cols,
      p ∉ ({(k, l), (b1, b2)} : Finset (ℕ × ℕ)) → F p = 0 := by
    rintro ⟨a, b⟩ hmem hnot
    simp only [Finset.mem_insert, Finset.mem_singleton, not_or] at hnot
    obtain ⟨hne1, hne2⟩ := hnot
    obtain ⟨ha, hb⟩ := mem_grid.mp hmem
    have hspin1 : (setSpin L k l v).spin a b = L.spin a b := by
      rw [setSpin_spin, if_neg]
      rintro ⟨hak, hbl⟩
      exact hne1 (by simp [Prod.ext_iff]; omega)
    have hq : pbc L ((a : ℤ) + di, (b : ℤ) + dj) ≠ ((k : ℤ), (l : ℤ)) := by
      intro hqe
      apply hne2
      rw [pbc, Prod.mk.injEq] at hqe
      obtain ⟨hq1, hq2⟩ := hqe
      have h1 : (a : ℤ) = ((k : ℤ) - di) % (L.rows : ℤ) :=
        solve_shift (by omega) (by exact_mod_cast ha) hq1
      have h2 : (b : ℤ) = ((l : ℤ) - dj) % (L.cols : ℤ) :=
        solve_shift (by omega) (by exact_mod_cast hb) hq2
      rw [Prod.mk.injEq]
      constructor
      · omega
      · omega
    have hspin2 : latticeAt (setSpin L k l v) (pbc L ((a : ℤ) + di, (b : ℤ) + dj))
        = latticeAt L (pbc L ((a : ℤ) + di, (b : ℤ) + dj)) := by
      rw [latticeAt, latticeAt, setSpin_spin, if_neg]
      rintro ⟨h1, h2⟩
      exact hq (by rw [Prod.ext_iff]; exact ⟨h1, h2⟩)
    rw [hF]
    simp only [hspin1, hspin2, sub_self]
  have hpair_ne : ((k, l) : ℕ × ℕ) ≠ (b1, b2) := Ne.symm hback
  have hsum2 : ∑ p in grid L.rows L.cols, F p
      = ∑ p in ({(k, l), (b1, b2)} : Finset (ℕ × ℕ)), F p :=
    (Finset.sum_subset hsubset (by intro p hp hnp; exact hvanish p hp hnp)).symm
  have hFa : F (k, l) = (v - L.spin k l) *
      latticeAt L (pbc L ((k : ℤ) + di, (l : ℤ) + dj)) := by
    rw [hF]
    simp only []
    have h1 : (setSpin L k l v).spin ((k, l).1 : ℕ) ((k, l).2 : ℕ) = v := by
      rw [setSpin_spin, if_pos ⟨rfl, rfl⟩]
    have h2 : latticeAt (setSpin L k l v) (pbc L ((k : ℤ) + di, (l : ℤ) + dj))
        = latticeAt L (pbc L ((k : ℤ) + di, (l : ℤ) + dj)) := by
      rw [latticeAt, latticeAt, setSpin_spin, if_neg]
      rintro ⟨h1', h2'⟩
      exact hfwd (by rw [Prod.ext_iff]; exact ⟨h1', h2'⟩)
    rw [h1, h2]
    ring
  have hback_pbc : pbc L ((b1 : ℤ) + di, (b2 : ℤ) + dj) = ((k : ℤ), (l : ℤ)) := by
    rw [pbc, Prod.mk.injEq]
    constructor
    · rw [hb1c, add_emod_left_cancel, sub_add_cancel,
        Int.emod_eq_of_lt (by omega) (by exact_mod_cast hk)]
    · rw [hb2c, add_emod_left_cancel, sub_add_cancel,
        Int.emod_eq_of_lt (by omega) (by exact_mod_cast hl)]
  have hFb : F (b1, b2) = (v - L.spin k l) *
      latticeAt L (pbc L ((k : ℤ) - di, (l : ℤ) - dj)) := by
    rw [hF]
    simp only []
    have h1 : (setSpin L k l v).spin ((b1 : ℤ)) ((b2 : ℤ)) = L.spin b1 b2 := by
      rw [setSpin_spin, if_neg]
      rintro ⟨h1', h2'⟩
      exact hpair_ne.symm (by rw [Prod.ext_iff]; constructor <;> [exact_mod_cast h1'; exact_mod_cast h2'])
    have h2 : latticeAt (setSpin L k l v) (pbc L ((b1 : ℤ) + di, (b2 : ℤ) + dj)) = v := by
      rw [latticeAt, hback_pbc, setSpin_spin, if_pos ⟨rfl, rfl⟩]
    have h3 : latticeAt L (pbc L ((b1 : ℤ) + di, (b2 : ℤ) + dj)) = L.spin k l := by
      rw [latticeAt, hback_pbc]
    have h4 : latticeAt L (pbc L ((k : ℤ) - di, (l : ℤ) - dj)) = L.spin b1 b2 := by
      rw [latticeAt, pbc]
      simp only []
      rw [← hb1c, ← hb2c]
    rw [h1, h2, h3, h4]
    ring
  have hmain : dirSum (setSpin L k l v) di dj - dirSum L di dj
      = F (k, l) + F (b1, b2) :=
    hsplit.trans (hsum2.trans (Finset.sum_pair hpair_ne))
  rw [hFa, hFb] at hmain
  linarith

/-- Direction offsets that are `±1` on one axis and `0` on the other
never map an in-range index to itself when the corresponding dimension
is at least 2 (forward form). -/
lemma pbc_shift_ne_horiz (L : IsingState) (k l : ℕ) (hR : 2 ≤ L.rows)
    (hk : k < L.rows) {d : ℤ} (hd : d = 1 ∨ d = -1) :
    pbc L ((k : ℤ) + d, (l : ℤ) + 0) ≠ ((k : ℤ), (l : ℤ)) := by
  intro h
  exact add_pm_one_emod_ne hR hk hd (congrArg Prod.fst h)

lemma pbc_shift_ne_vert (L : IsingState) (k l : ℕ) (hC : 2 ≤ L.cols)
    (hl : l < L.cols) {d : ℤ} (hd : d = 1 ∨ d = -1) :
    pbc L ((k : ℤ) + 0, (l : ℤ) + d) ≠ ((k : ℤ), (l : ℤ)) := by
  intro h
  exact add_pm_one_emod_ne hC hl hd (congrArg Prod.snd h)

/-- Backward form of the previous fact, phrased on the reduced `ℕ`
index pair. -/
lemma back_ne_horiz (L : IsingState) (k l : ℕ) (hR : 2 ≤ L.rows)
    (hk : k < L.rows) {d : ℤ} (hd : d = 1 ∨ d = -1) :
    ((((k : ℤ) - d) % (L.rows : ℤ)).toNat,
      (((l : ℤ) - 0) % (L.cols : ℤ)).toNat) ≠ (k, l) := by
  intro h
  have h1 := congrArg Prod.fst h
  simp only [] at h1
  have h2 : (((k : ℤ) - d) % (L.rows : ℤ)) = (k : ℤ) := by
    rw [← emod_toNat_cast (by omega : 0 < L.rows) ((k : ℤ) - d), h1]
  have h3 : (-d) = 1 ∨ (-d) = -1 := by omega
  apply add_pm_one_emod_ne hR hk h3
  rw [show (k : ℤ) + -d = (k : ℤ) - d from by ring]
  exact h2

lemma back_ne_vert (L : IsingState) (k l : ℕ) (hC : 2 ≤ L.cols)
    (hl : l < L.cols) {d : ℤ} (hd : d = 1 ∨ d = -1) :
    ((((k : ℤ) - 0) % (L.rows : ℤ)).toNat,
      (((l : ℤ) - d) % (L.cols : ℤ)).toNat) ≠ (k, l) := by
  intro h
  have h1 := congrArg Prod.snd h
  simp only [] at h1
  have h2 : (((l : ℤ) - d) % (L.cols : ℤ)) = (l : ℤ) := by
    rw [← emod_toNat_cast (by omega : 0 < L.cols) ((l : ℤ) - d), h1]
  have h3 : (-d) = 1 ∨ (-d) = -1 := by omega
  apply add_pm_one_emod_ne hC hl h3
  rw [show (l : ℤ) + -d = (l : ℤ) - d from by ring]
  exact h2

/-- A double sum over the two index ranges is a sum over `grid`. -/
lemma double_sum_eq_grid (R C : ℕ) (f : ℕ → ℕ → ℤ) :
    (∑ i in Finset.range R, ∑ j in Finset.range C, f i j)
      = ∑ p in grid R C, f p.1 p.2 := by
  rw [grid]
  exact (Finset.sum_product' _ _ _).symm

/-- `total_E_sum` is the negated sum of the four directed-bond sums. -/
lemma total_E_sum_eq_dirSums (L : IsingState) :
    total_E_sum L
      = -(dirSum L (-1) 0 + dirSum L 1 0 + dirSum L 0 (-1) + dirSum L 0 1) := by
  have point : ∀ a b : ℕ, unit_E L a b
      = -(L.spin a b * latticeAt L (pbc L ((a : ℤ) + -1, (b : ℤ) + 0))
          + L.spin a b * latticeAt L (pbc L ((a : ℤ) + 1, (b : ℤ) + 0))
          + L.spin a b * latticeAt L (pbc L ((a : ℤ) + 0, (b : ℤ) + -1))
          + L.spin a b * latticeAt L (pbc L ((a : ℤ) + 0, (b : ℤ) + 1))) := by
    intro a b
    have e1 : (a : ℤ) + -1 = (a : ℤ) - 1 := by ring
    have e2 : (b : ℤ) + 0 = (b : ℤ) := by ring
    have e3 : (a : ℤ) + 0 = (a : ℤ) := by ring
    have e4 : (b : ℤ) + -1 = (b : ℤ) - 1 := by ring
    rw [unit_E, e1, e2, e3, e4]
    ring
  calc total_E_sum L = ∑ p in grid L.rows L.cols, unit_E L p.1 p.2 := by
        rw [total_E_sum]
        exact double_sum_eq_grid L.rows L.cols (fun i j => unit_E L i j)
    _ = ∑ p in grid L.rows L.cols,
          -(L.spin p.1 p.2 * latticeAt L (pbc L ((p.1 : ℤ) + -1, (p.2 : ℤ) + 0))
            + L.spin p.1 p.2 * latticeAt L (pbc L ((p.1 : ℤ) + 1, (p.2 : ℤ) + 0))
            + L.spin p.1 p.2 * latticeAt L (pbc L ((p.1 : ℤ) + 0, (p.2 : ℤ) + -1))
            + L.spin p.1 p.2 * latticeAt L (pbc L ((p.1 : ℤ) + 0, (p.2 : ℤ) + 1))) :=
        Finset.sum_congr rfl (fun p _ => point p.1 p.2)
    _ = -(dirSum L (-1) 0 + dirSum L 1 0 + dirSum L 0 (-1) + dirSum L 0 1) := by
        rw [dirSum, dirSum, dirSum, dirSum]
        rw [← Finset.sum_add_distrib, ← Finset.sum_add_distrib, ← Finset.sum_add_distrib,
          ← Finset.sum_neg_distrib]

/-- Flipping one in-range spin changes the raw double-counted energy
sum by exactly twice `get_dE` (dimension ≥ 2 in both axes). -/
lemma total_E_sum_setSpin (L : IsingState) (k l : ℕ) (v : ℤ)
    (hv : v = -L.spin k l) (hR : 2 ≤ L.rows) (hC : 2 ≤ L.cols)
    (hk : k < L.rows) (hl : l < L.cols) :
    total_E_sum (setSpin L k l v) = total_E_sum L + 2 * get_dE L k l := by
  rw [total_E_sum_eq_dirSums, total_E_sum_eq_dirSums]
  rw [dirSum_setSpin L k l v (-1) 0 hk hl
      (pbc_shift_ne_horiz L k l hR hk (Or.inr rfl)) (back_ne_horiz L k l hR hk (Or.inr rfl)),
    dirSum_setSpin L k l v 1 0 hk hl
      (pbc_shift_ne_horiz L k l hR hk (Or.inl rfl)) (back_ne_horiz L k l hR hk (Or.inl rfl)),
    dirSum_setSpin L k l v 0 (-1) hk hl
      (pbc_shift_ne_vert L k l hC hl (Or.inr rfl)) (back_ne_vert L k l hC hl (Or.inr rfl)),
    dirSum_setSpin L k l v 0 1 hk hl
      (pbc_shift_ne_vert L k l hC hl (Or.inl rfl)) (back_ne_vert L k l hC hl (Or.inl rfl))]
  have e1 : (k : ℤ) + -1 = (k : ℤ) - 1 := by ring
  have e2 : (k : ℤ) - -1 = (k : ℤ) + 1 := by ring
  have e3 : (l : ℤ) + 0 = (l : ℤ) := by ring
  have e4 : (l : ℤ) - 0 = (l : ℤ) := by ring
  have e5 : (k : ℤ) + 0 = (k : ℤ) := by ring
  have e6 : (k : ℤ) - 0 = (k : ℤ) := by ring
  have e7 : (l : ℤ) + -1 = (l : ℤ) - 1 := by ring
  have e8 : (l : ℤ) - -1 = (l : ℤ) + 1 := by ring
  rw [e1, e2, e3, e4, e5, e6, e7, e8, get_dE, hv]
  ring

/-- `get_total_E` is insensitive to the `total_E` field. -/
lemma get_total_E_set_total (L : IsingState) (x : ℚ) :
    get_total_E { L with total_E := x } = get_total_E L := rfl

/-- Flipping one in-range spin changes the from-scratch total energy
by exactly `get_dE` (dimension ≥ 2 in both axes). -/
lemma get_total_E_setSpin (L : IsingState) (k l : ℕ) (v : ℤ)
    (hv : v = -L.spin k l) (hR : 2 ≤ L.rows) (hC : 2 ≤ L.cols)
    (hk : k < L.rows) (hl : l < L.cols) :
    get_total_E (setSpin L k l v) = get_total_E L + (get_dE L k l : ℚ) := by
  rw [get_total_E, get_total_E, total_E_sum_setSpin L k l v hv hR hC hk hl]
  push_cast
  ring

/-- `get_dE` only looks at the dimensions and the spin grid. -/
lemma get_dE_congr (L1 L2 : IsingState) (hr : L1.rows = L2.rows)
    (hc : L1.cols = L2.cols) (hs : ∀ a b : ℤ, L1.spin a b = L2.spin a b)
    (i j : ℤ) : get_dE L1 i j = get_dE L2 i j := by
  simp only [get_dE, latticeAt, pbc, hr, hc, hs]

/-- `x * -1` and `-1 * x` stores at the same site produce pointwise
identical grids. -/
lemma setSpin_mul_neg_comm (L : IsingState) (i j : ℤ) (a b : ℤ) :
    (setSpin L i j (L.spin i j * -1)).spin a b
      = (setSpin L i j (-1 * L.spin i j)).spin a b := by
  simp only [setSpin_spin]
  split
  · ring
  · rfl

/-- One `glauber` call preserves the incremental-energy invariant on a
lattice with both dimensions at least 2. -/
lemma glauber_total_E_invariant (L : IsingState) (i j : ℕ) (oc : Bool)
    (hR : 2 ≤ L.rows) (hC : 2 ≤ L.cols) (hi : i < L.rows) (hj : j < L.cols)
    (hE : L.total_E = get_total_E L) :
    (glauber L i j oc).total_E = get_total_E (glauber L i j oc) := by
  cases oc with
  | false => simpa [glauber] using hE
  | true =>
    have h2 : glauber L i j true
        = { setSpin L i j (L.spin i j * -1) with
            total_E := L.total_E + (get_dE L i j : ℚ) } := rfl
    rw [h2, get_total_E_set_total,
      get_total_E_setSpin L i j _ (by ring) hR hC hi hj, ← hE]

/-- One `kawasaki` call preserves the incremental-energy invariant on
a lattice with both dimensions at least 2. -/
lemma kawasaki_total_E_invariant (L : IsingState) (i1 j1 i2 j2 : ℕ) (oc : Bool)
    (hR : 2 ≤ L.rows) (hC : 2 ≤ L.cols)
    (h1r : i1 < L.rows) (h1c : j1 < L.cols) (h2r : i2 < L.rows) (h2c : j2 < L.cols)
    (hE : L.total_E = get_total_E L) :
    (kawasaki L i1 j1 i2 j2 oc).1.total_E
      = get_total_E (kawasaki L i1 j1 i2 j2 oc).1 := by
  by_cases hs : L.spin i1 j1 = L.spin i2 j2
  · rw [kawasaki, if_neg (not_not.mpr hs)]
    exact hE
  · simp only [kawasaki, if_pos hs]
    cases oc with
    | false =>
      rw [if_neg Bool.false_ne_true]
      rw [restore_cancel]
      exact hE
    | true =>
      rw [if_pos rfl]
      rw [restore_cancel]
      set La := setSpin L i1 j1 (L.spin i1 j1 * -1) with hLa
      set Lb := setSpin La i2 j2 (La.spin i2 j2 * -1) with hLb
      rw [get_total_E_set_total]
      have hstep1 : get_total_E La = get_total_E L + (get_dE L i1 j1 : ℚ) :=
        get_total_E_setSpin L i1 j1 _ (by ring) hR hC h1r h1c
      have hstep2 : get_total_E Lb = get_total_E La + (get_dE La i2 j2 : ℚ) := by
        rw [hLb]
        exact get_total_E_setSpin La i2 j2 _ (by ring) hR hC h2r h2c
      have hcong : get_dE La i2 j2
          = get_dE (setSpin L i1 j1 (-1 * L.spin i1 j1)) i2 j2 :=
        get_dE_congr La (setSpin L i1 j1 (-1 * L.spin i1 j1)) rfl rfl
          (fun a b => setSpin_mul_neg_comm L i1 j1 a b) i2 j2
      rw [hstep2, hstep1, hcong, ← hE]
      push_cast
      ring

/-- One update proposal of the simulation: either a `glauber` call or
a `kawasaki` call, together with its random choices (sites and
Metropolis outcome). -/
inductive Step where
  | glauber (i j : ℕ) (outcome : Bool)
  | kawasaki (i1 j1 i2 j2 : ℕ) (outcome : Bool)

/-- Execute one step on the state (the `kawasaki` draw-consumed flag
is discarded, as the driver does). -/
def applyStep (L : IsingState) : Step → IsingState
  | Step.glauber i j oc => glauber L i j oc
  | Step.kawasaki i1 j1 i2 j2 oc => (kawasaki L i1 j1 i2 j2 oc).1

/-- The site indices of a step lie inside an `R × C` grid, as the
`np.random.randint(0, size)` draws in the source guarantee. -/
def stepInBounds (R C : ℕ) : Step → Prop
  | Step.glauber i j _ => i < R ∧ j < C
  | Step.kawasaki i1 j1 i2 j2 _ => i1 < R ∧ j1 < C ∧ i2 < R ∧ j2 < C

/-- Run a finite sequence of update proposals. -/
def runSteps (L : IsingState) (steps : List Step) : IsingState :=
  steps.foldl applyStep L

lemma applyStep_rows (L : IsingState) (s : Step) :
    (applyStep L s).rows = L.rows := by
  cases s with
  | glauber i j oc =>
    simp only [applyStep, glauber]
    split <;> rfl
  | kawasaki i1 j1 i2 j2 oc =>
    simp only [applyStep, kawasaki]
    split
    · split <;> rfl
    · rfl

lemma applyStep_cols (L : IsingState) (s : Step) :
    (applyStep L s).cols = L.cols := by
  cases s with
  | glauber i j oc =>
    simp only [applyStep, glauber]
    split <;> rfl
  | kawasaki i1 j1 i2 j2 oc =>
    simp only [applyStep, kawasaki]
    split
    · split <;> rfl
    · rfl

lemma applyStep_total_E_invariant (L : IsingState) (s : Step)
    (hR : 2 ≤ L.rows) (hC : 2 ≤ L.cols) (hs : stepInBounds L.rows L.cols s)
    (hE : L.total_E = get_total_E L) :
    (applyStep L s).total_E = get_total_E (applyStep L s) := by
  cases s with
  | glauber i j oc =>
    exact glauber_total_E_invariant L i j oc hR hC hs.1 hs.2 hE
  | kawasaki i1 j1 i2 j2 oc =>
    exact kawasaki_total_E_invariant L i1 j1 i2 j2 oc hR hC
      hs.1 hs.2.1 hs.2.2.1 hs.2.2.2 hE

/-! ### Claim C1: incremental `total_E` equals from-scratch recomputation -/

/-- C1 (amended): on every lattice with both dimensions at least 2,
after any finite sequence of `glauber` and `kawasaki` steps (accepted
or rejected, with the sites drawn in range as `np.random.randint`
guarantees), the incrementally maintained `total_E` equals the value
`get_total_E` recomputes from scratch — exactly, since all quantities
are exact rationals in the model.  (The restriction to dimensions ≥ 2
is forced: see `total_E_invariant_fails_on_1x1`.) -/
theorem total_E_invariant_dims_ge_two (L : IsingState) (steps : List Step)
    (hR : 2 ≤ L.rows) (hC : 2 ≤ L.cols)
    (hb : ∀ s ∈ steps, stepInBounds L.rows L.cols s)
    (hE : L.total_E = get_total_E L) :
    (runSteps L steps).total_E = get_total_E (runSteps L steps) := by
  induction steps generalizing L with
  | nil => exact hE
  | cons s rest ih =>
    have hs := hb s (List.mem_cons_self s rest)
    have hstep := applyStep_total_E_invariant L s hR hC hs hE
    have hrows := applyStep_rows L s
    have hcols := applyStep_cols L s
    have hb' : ∀ t ∈ rest, stepInBounds (applyStep L s).rows (applyStep L s).cols t := by
      intro t ht
      rw [hrows, hcols]
      exact hb t (List.mem_cons_of_mem s ht)
    exact ih (applyStep L s) (hrows ▸ hR) (hcols ▸ hC) hb' hstep

/-- Witness for C1 (amended) at a concrete input: a 2×2 uniform-up
lattice followed by one accepted `glauber` flip. -/
theorem total_E_invariant_dims_ge_two_witness :
    2 ≤ (build_lattice_u 2 2 1).rows ∧ 2 ≤ (build_lattice_u 2 2 1).cols ∧
      (build_lattice_u 2 2 1).total_E = get_total_E (build_lattice_u 2 2 1) ∧
      (runSteps (build_lattice_u 2 2 1) [Step.glauber 0 0 true]).total_E
        = get_total_E (runSteps (build_lattice_u 2 2 1) [Step.glauber 0 0 true]) := by
  refine ⟨by decide, by decide, rfl, ?_⟩
  apply total_E_invariant_dims_ge_two (build_lattice_u 2 2 1) [Step.glauber 0 0 true]
    (by decide) (by decide) ?_ rfl
  intro s hs
  rw [List.mem_singleton] at hs
  subst hs
  exact ⟨by decide, by decide⟩

/-- Counterexample to C1 as stated ("for every lattice"): on a 1×1
lattice, one accepted `glauber` step (reachable, since the Metropolis
rule accepts a positive delta with probability `exp(-dE/T) > 0`)
leaves `total_E = 6` while recomputation gives `-2`: with a dimension
of size 1 a site is its own periodic neighbour and `get_dE` is no
longer the true energy change. -/
theorem total_E_invariant_fails_on_1x1 :
    (glauber (build_lattice_u 1 1 1) 0 0 true).total_E ≠
      get_total_E (glauber (build_lattice_u 1 1 1) 0 0 true) := by
  norm_num [glauber, build_lattice_u, get_total_E, total_E_sum, unit_E, get_dE, latticeAt,
    pbc, setSpin, Finset.sum_range_succ]

/-! ### Claim C7: Kawasaki conserves the total spin sum -/

/-- `gridSum` is insensitive to the `total_E` field. -/
lemma gridSum_set_total (L : IsingState) (x : ℚ) :
    gridSum { L with total_E := x } = gridSum L := rfl

/-- Overwriting one in-range site changes the total spin by the
difference of new and old value. -/
lemma gridSum_setSpin (L : IsingState) (k l : ℕ) (v : ℤ)
    (hk : k < L.rows) (hl : l < L.cols) :
    gridSum (setSpin L k l v) = gridSum L - L.spin k l + v := by
  have hmem : ((k, l) : ℕ × ℕ) ∈ grid L.rows L.cols := mem_grid.mpr ⟨hk, hl⟩
  have hL : gridSum L = ∑ p in grid L.rows L.cols, L.spin p.1 p.2 := by
    rw [gridSum]
    exact double_sum_eq_grid L.rows L.cols (fun i j => L.spin i j)
  have hL' : gridSum (setSpin L k l v)
      = ∑ p in grid L.rows L.cols, (setSpin L k l v).spin p.1 p.2 := by
    rw [gridSum, setSpin_rows, setSpin_cols]
    exact double_sum_eq_grid L.rows L.cols (fun i j => (setSpin L k l v).spin i j)
  have hsplit1 : (setSpin L k l v).spin ((k, l).1 : ℕ) ((k, l).2 : ℕ)
        + ∑ p in (grid L.rows L.cols).erase (k, l), (setSpin L k l v).spin p.1 p.2
      = ∑ p in grid L.rows L.cols, (setSpin L k l v).spin p.1 p.2 :=
    Finset.add_sum_erase _ (fun p => (setSpin L k l v).spin p.1 p.2) hmem
  have hsplit2 : L.spin ((k, l).1 : ℕ) ((k, l).2 : ℕ)
        + ∑ p in (grid L.rows L.cols).erase (k, l), L.spin p.1 p.2
      = ∑ p in grid L.rows L.cols, L.spin p.1 p.2 :=
    Finset.add_sum_erase _ (fun p => L.spin p.1 p.2) hmem
  have hcongr : ∑ p in (grid L.rows L.cols).erase (k, l), (setSpin L k l v).spin p.1 p.2
      = ∑ p in (grid L.rows L.cols).erase (k, l), L.spin p.1 p.2 := by
    apply Finset.sum_congr rfl
    rintro ⟨a, b⟩ hp
    have hne := (Finset.mem_erase.mp hp).1
    rw [setSpin_spin, if_neg]
    rintro ⟨h1, h2⟩
    apply hne
    rw [Prod.mk.injEq]
    constructor <;> omega
  have hkl : (setSpin L k l v).spin ((k, l).1 : ℕ) ((k, l).2 : ℕ) = v := by
    rw [setSpin_spin, if_pos ⟨rfl, rfl⟩]
  rw [hL, hL', ← hsplit1, ← hsplit2, hcongr, hkl]
  ring

/-- C7: a `kawasaki` call — accepted, rejected or vacuous — leaves the
total spin sum of the grid unchanged, provided the chosen sites are in
range (as the `np.random.randint` draws guarantee) and carry `±1`
spins (as every grid built by `build_lattice` and evolved by flips
does).  Conservation of the initial magnetisation across a whole run
follows step by step. -/
theorem kawasaki_preserves_spin_sum (L : IsingState) (i1 j1 i2 j2 : ℕ)
    (oc : Bool) (h1r : i1 < L.rows) (h1c : j1 < L.cols)
    (h2r : i2 < L.rows) (h2c : j2 < L.cols)
    (hs1 : L.spin i1 j1 = 1 ∨ L.spin i1 j1 = -1)
    (hs2 : L.spin i2 j2 = 1 ∨ L.spin i2 j2 = -1) :
    gridSum (kawasaki L i1 j1 i2 j2 oc).1 = gridSum L := by
  by_cases hs : L.spin i1 j1 = L.spin i2 j2
  · rw [kawasaki, if_neg (not_not.mpr hs)]
  · simp only [kawasaki, if_pos hs]
    cases oc with
    | false =>
      rw [if_neg Bool.false_ne_true, restore_cancel]
    | true =>
      rw [if_pos rfl, restore_cancel]
      set La := setSpin L i1 j1 (L.spin i1 j1 * -1) with hLa
      have hpair : ¬((i2 : ℤ) = (i1 : ℤ) ∧ (j2 : ℤ) = (j1 : ℤ)) := by
        rintro ⟨h1, h2⟩
        apply hs
        have hi : (i1 : ℤ) = (i2 : ℤ) := h1.symm
        have hj : (j1 : ℤ) = (j2 : ℤ) := h2.symm
        rw [hi, hj]
      have hLa2 : La.spin i2 j2 = L.spin i2 j2 := by
        rw [hLa, setSpin_spin, if_neg hpair]
      rw [gridSum_set_total]
      have hstep2 : gridSum (setSpin La i2 j2 (La.spin i2 j2 * -1))
          = gridSum La - La.spin i2 j2 + La.spin i2 j2 * -1 := by
        apply gridSum_setSpin La i2 j2 _ h2r h2c
      have hstep1 : gridSum La = gridSum L - L.spin i1 j1 + L.spin i1 j1 * -1 := by
        rw [hLa]
        exact gridSum_setSpin L i1 j1 _ h1r h1c
      rw [hstep2, hstep1, hLa2]
      rcases hs1 with h1 | h1 <;> rcases hs2 with h2 | h2 <;>
        rw [h1, h2] <;> first | (exact absurd (h1.trans h2.symm) hs) | ring

/-- Witness for C7 at a concrete input: a 2×2 lattice with one down
spin, an accepted exchange between the down site `(0,0)` and the up
site `(1,1)`. -/
theorem kawasaki_preserves_spin_sum_witness :
    (setSpin (build_lattice_u 2 2 1) 0 0 (-1)).spin 0 0 = -1 ∧
      gridSum (kawasaki (setSpin (build_lattice_u 2 2 1) 0 0 (-1)) 0 0 1 1 true).1
        = gridSum (setSpin (build_lattice_u 2 2 1) 0 0 (-1)) :=
  ⟨rfl, kawasaki_preserves_spin_sum (setSpin (build_lattice_u 2 2 1) 0 0 (-1))
    0 0 1 1 true (by decide) (by decide) (by decide) (by decide)
    (Or.inr rfl) (Or.inl rfl)⟩

/-! ### Claims C4 and C5: the Metropolis acceptance rule -/

/-- The capped Boltzmann factor of `IsingModel.metropolis`:
`prob = min(1, exp(-dE / temp))`. -/
noncomputable def metropolisProb (temp dE : ℝ) : ℝ :=
  min 1 (Real.exp (-dE / temp))

/-- `IsingModel.metropolis` as a relation between the energy delta and
the single fresh uniform draw `r = np.random.random()` consumed in the
`dE >= 0` branch: the call returns `True` iff this proposition holds
(`dE < 0` returns `True` outright; otherwise `True` iff `r <= prob`,
`False` iff `r > prob`). -/
def metropolis (temp dE r : ℝ) : Prop :=
  if dE < 0 then True else r ≤ metropolisProb temp dE

/-- The acceptance probability of `metropolis` as a function of the
delta: for `dE < 0` acceptance is certain; for `dE ≥ 0` the uniform
draw `r ∈ [0,1)` satisfies `r ≤ p` with probability `p` for
`p ∈ [0,1]`, so the acceptance probability is the capped Boltzmann
factor itself. -/
noncomputable def acceptanceProb (temp dE : ℝ) : ℝ :=
  if dE < 0 then 1 else metropolisProb temp dE

/-- C4: `metropolis(dE)` returns true whenever `dE < 0`; otherwise
(`dE ≥ 0`) it returns true iff the fresh uniform draw `r` satisfies
`r ≤ min(1, exp(-dE / temperature))`, and false otherwise. -/
theorem metropolis_accept_spec (temp dE r : ℝ) :
    (dE < 0 → metropolis temp dE r) ∧
      (0 ≤ dE → (metropolis temp dE r ↔ r ≤ min 1 (Real.exp (-dE / temp)))) := by
  constructor
  · intro h
    rw [metropolis, if_pos h]
    trivial
  · intro h
    rw [metropolis, if_neg (not_lt.mpr h), metropolisProb]

/-- Witness for C4 at concrete inputs: `dE = -1` is accepted outright
at `temp = 1`, and at `dE = 2` acceptance is equivalent to the draw
comparison. -/
theorem metropolis_accept_spec_witness :
    ((-1 : ℝ) < 0 ∧ metropolis 1 (-1) (1/2)) ∧
      ((0 : ℝ) ≤ 2 ∧ (metropolis 1 2 (1/2) ↔ (1/2 : ℝ) ≤ min 1 (Real.exp (-2 / 1)))) :=
  ⟨⟨neg_one_lt_zero, (metropolis_accept_spec 1 (-1) (1/2)).1 neg_one_lt_zero⟩,
    ⟨zero_le_two, (metropolis_accept_spec 1 2 (1/2)).2 zero_le_two⟩⟩

/-- C5 (amended): at fixed positive temperature `metropolis` always
accepts negative deltas, and the acceptance probability is strictly
decreasing in the delta on the region `0 ≤ dE` (where the Boltzmann
factor lives); it is constantly 1 on `dE < 0`, so strict decrease
cannot extend to pairs of negative deltas
(see `metropolis_monotonicity_counterexample`). -/
theorem metropolis_monotonicity_amended (temp : ℝ) (htemp : 0 < temp) :
    (∀ dE r : ℝ, dE < 0 → metropolis temp dE r) ∧
      (∀ dE1 dE2 : ℝ, 0 ≤ dE1 → dE1 < dE2 →
        acceptanceProb temp dE2 < acceptanceProb temp dE1) := by
  constructor
  · intro dE r h
    rw [metropolis, if_pos h]
    trivial
  · intro dE1 dE2 h0 hlt
    have h2 : (0 : ℝ) < dE2 := lt_of_le_of_lt h0 hlt
    simp only [acceptanceProb]
    rw [if_neg (not_lt.mpr h2.le), if_neg (not_lt.mpr h0)]
    have he2lt1 : Real.exp (-dE2 / temp) < 1 := by
      rw [Real.exp_lt_one_iff]
      exact div_neg_of_neg_of_pos (neg_neg_of_pos h2) htemp
    have helt : Real.exp (-dE2 / temp) < Real.exp (-dE1 / temp) := by
      rw [Real.exp_lt_exp]
      exact (div_lt_div_iff_of_pos_right htemp).mpr (by linarith)
    rw [metropolisProb, metropolisProb, min_eq_right he2lt1.le]
    exact lt_min he2lt1 helt

/-- Witness for C5 (amended) at concrete inputs: `temp = 1`, a
negative delta accepted outright, and `acceptanceProb 1 1 <
acceptanceProb 1 0`. -/
theorem metropolis_monotonicity_amended_witness :
    (0 : ℝ) < 1 ∧ metropolis 1 (-1) (1/2) ∧
      acceptanceProb 1 1 < acceptanceProb 1 0 :=
  ⟨zero_lt_one,
    (metropolis_monotonicity_amended 1 zero_lt_one).1 (-1) (1/2) neg_one_lt_zero,
    (metropolis_monotonicity_amended 1 zero_lt_one).2 0 1 le_rfl zero_lt_one⟩

/-- Counterexample to C5 as stated: strict decrease fails on pairs of
negative deltas — at `temp = 1`, `dE1 = -2 < dE2 = -1` but both are
accepted with probability exactly 1, so the probability at `dE1` is
not strictly greater than at `dE2`. -/
theorem metropolis_monotonicity_counterexample :
    ((-2 : ℝ) < -1) ∧ ¬(acceptanceProb 1 (-1) < acceptanceProb 1 (-2)) := by
  constructor
  · norm_num
  · have h1 : acceptanceProb 1 (-1) = 1 := by
      rw [acceptanceProb, if_pos (by norm_num : (-1 : ℝ) < 0)]
    have h2 : acceptanceProb 1 (-2) = 1 := by
      rw [acceptanceProb, if_pos (by norm_num : (-2 : ℝ) < 0)]
    rw [h1, h2]
    exact lt_irrefl 1

/-! ### Observables and bootstrap (Claims C2 and C10) -/

/-- `IsingModel.get_avg_obs`: `np.mean(observables)`. -/
def get_avg_obs (xs : List ℚ) : ℚ :=
  xs.sum / xs.length

/-- `np.var`: population variance (divide by N), as numpy computes. -/
def np_var (xs : List ℚ) : ℚ :=
  (xs.map (fun x => (x - get_avg_obs xs) ^ 2)).sum / xs.length

/-- `IsingModel.get_heat_capacity`:
`np.var(energies) / (size[0] * size[1] * temp ** 2)`. -/
def get_heat_capacity (rows cols : ℕ) (temp : ℚ) (energies : List ℚ) : ℚ :=
  np_var energies / (rows * cols * temp ^ 2)

/-- `IsingModel.get_chi`:
`np.var(mags) / (size[0] * size[1] * temp)`. -/
def get_chi (rows cols : ℕ) (temp : ℚ) (mags : List ℚ) : ℚ :=
  np_var mags / (rows * cols * temp)

/-- `np.random.randint(lo, hi)`: raises `ValueError` when
`lo >= hi` (modelled as `none`), otherwise returns a uniform draw in
the half-open range `[lo, hi)` (the seed `r` selects which one). -/
def randint (lo hi : ℤ) (r : ℕ) : Option ℤ :=
  if lo < hi then some (lo + (r : ℤ) % (hi - lo)) else none

/-- The index draw both bootstrap routines perform per resampled
element: `np.random.randint(0, len(samples) - 1)`. -/
def drawIndex (len : ℕ) (r : ℕ) : Option ℤ :=
  randint 0 ((len : ℤ) - 1) r

/-- `IsingModel.bootstrap` up to the final `m.sqrt`: for each of
`samples` iterations, build a resample of `energies` of the same
length by repeated `drawIndex` draws (`rand i j` is the seed of the
`j`-th draw of iteration `i`), apply `get_heat_capacity`, and take
`np.var` of the resulting list.  The returned value's square root is
what the Python function returns; the square root is total, so the
call raises iff this model returns `none`. -/
def bootstrap (rows cols : ℕ) (temp : ℚ) (energies : List ℚ) (samples : ℕ)
    (rand : ℕ → ℕ → ℕ) : Option ℚ :=
  ((List.range samples).mapM (fun i =>
      ((List.range energies.length).mapM (fun j =>
          (drawIndex energies.length (rand i j)).map
            (fun r => energies.getD r.toNat 0))).map
        (fun sampling_data => get_heat_capacity rows cols temp sampling_data))).map
    np_var

/-- `IsingModel.bootstrap_chi` up to the final `m.sqrt`: identical to
`bootstrap` with `get_chi` in place of `get_heat_capacity`. -/
def bootstrap_chi (rows cols : ℕ) (temp : ℚ) (mags : List ℚ) (samples : ℕ)
    (rand : ℕ → ℕ → ℕ) : Option ℚ :=
  ((List.range samples).mapM (fun i =>
      ((List.range mags.length).mapM (fun j =>
          (drawIndex mags.length (rand i j)).map
            (fun r => mags.getD r.toNat 0))).map
        (fun sampling_data => get_chi rows cols temp sampling_data))).map
    np_var

/-! ### Claim C2: the draw range misses the last index -/

/-- C2 fails on the code: with `N = 2` samples the per-element draw is
`np.random.randint(0, 1)`, which always returns index `0` — the last
valid index `1` can never be selected.  (The upper bound of
`np.random.randint` is exclusive, so the draw range is `[0, N-2]`,
not the full `[0, N-1]` the claim asserts.) -/
theorem bootstrap_draw_never_selects_last_index (r : ℕ) :
    drawIndex 2 r = some 0 := by
  simp [drawIndex, randint, Int.emod_one]

/-! ### Claim C10: singleton sample list makes bootstrap raise -/

lemma mapM_range_none {α : Type} (f : ℕ → Option α) (n : ℕ) (hn : n ≠ 0)
    (h : f 0 = none) : (List.range n).mapM f = none := by
  obtain ⟨m, rfl⟩ := Nat.exists_eq_succ_of_ne_zero hn
  rw [List.range_succ_eq_map, List.mapM_cons, h]
  rfl

/-- C10: on a sample list containing exactly one element, with at
least one resample requested, both `bootstrap` and `bootstrap_chi`
raise (`np.random.randint(0, 0)` has an empty range: lower bound
equals the exclusive upper bound) instead of returning an error
estimate. -/
theorem bootstrap_singleton_raises (rows cols : ℕ) (temp : ℚ) (e : ℚ)
    (samples : ℕ) (rand : ℕ → ℕ → ℕ) :
    bootstrap rows cols temp [e] (samples + 1) rand = none ∧
      bootstrap_chi rows cols temp [e] (samples + 1) rand = none := by
  have hdraw : ∀ r, drawIndex ([e] : List ℚ).length r = none := by
    intro r
    rw [List.length_singleton, drawIndex, randint, if_neg (by norm_num)]
  constructor
  · rw [bootstrap, Option.map_eq_none']
    apply mapM_range_none _ _ (Nat.succ_ne_zero samples)
    rw [Option.map_eq_none']
    apply mapM_range_none _ _ (by simp)
    rw [hdraw]
    rfl
  · rw [bootstrap_chi, Option.map_eq_none']
    apply mapM_range_none _ _ (Nat.succ_ne_zero samples)
    rw [Option.map_eq_none']
    apply mapM_range_none _ _ (by simp)
    rw [hdraw]
    rfl

/-! ### The batch driver of `IsingPlotter.main` (Claims C3 and C8) -/

/-- The Glauber measurement loop of `IsingPlotter.main` for one
temperature point: `for j in range(sweeps): for k in
range(rows*cols): glauber(); if (j+1) >= eqm_sweeps and (j+1) % n ==
0: append total_E and get_abs_M`.  The site and outcome streams stand
for the random draws.  Returns the final state and the two per-sweep
sample lists (`energy_per_temp`, `mag_per_temp`). -/
def glauber_sweep_loop (L0 : IsingState) (sweeps eqm_sweeps n : ℕ)
    (site : ℕ → ℕ → ℕ × ℕ) (oc : ℕ → ℕ → Bool) :
    IsingState × List ℚ × List ℤ :=
  (List.range sweeps).foldl
    (fun acc j =>
      (List.range (L0.rows * L0.cols)).foldl
        (fun acc2 k =>
          let L' := glauber acc2.1 (site j k).1 (site j k).2 (oc j k)
          if eqm_sweeps ≤ j + 1 ∧ (j + 1) % n = 0 then
            (L', acc2.2.1 ++ [L'.total_E], acc2.2.2 ++ [get_abs_M L'])
          else
            (L', acc2.2.1, acc2.2.2))
        acc)
    (L0, [], [])

/-- The Kawasaki measurement loop of `IsingPlotter.main` for one
temperature point (energy samples only). -/
def kawasaki_sweep_loop (L0 : IsingState) (sweeps eqm_sweeps n : ℕ)
    (site : ℕ → ℕ → ℕ × ℕ × ℕ × ℕ) (oc : ℕ → ℕ → Bool) :
    IsingState × List ℚ :=
  (List.range sweeps).foldl
    (fun acc j =>
      (List.range (L0.rows * L0.cols)).foldl
        (fun acc2 k =>
          let L' := (kawasaki acc2.1 (site j k).1 (site j k).2.1
            (site j k).2.2.1 (site j k).2.2.2 (oc j k)).1
          if eqm_sweeps ≤ j + 1 ∧ (j + 1) % n = 0 then
            (L', acc2.2 ++ [L'.total_E])
          else
            (L', acc2.2))
        acc)
    (L0, [])

/-! ### Claim C3: one sample per qualifying sweep -/

/-- C3 fails on the code: the cadence test sits inside the per-step
loop, so a qualifying sweep contributes `rows*cols` samples (one
after every update step), not exactly one sample recorded after the
sweep.  Concretely, on a 2×2 lattice with `sweeps = 1`,
`eqm_sweeps = 1`, `n = 1`, the single (qualifying) sweep appends 4
energy samples (and 4 magnetisation samples) in the Glauber loop and
4 energy samples in the Kawasaki loop, where the claim mandates
exactly 1. -/
theorem sampling_recorded_per_step_not_per_sweep :
    (glauber_sweep_loop (build_lattice_u 2 2 1) 1 1 1
        (fun _ _ => (0, 0)) (fun _ _ => false)).2.1.length = 4 ∧
      (glauber_sweep_loop (build_lattice_u 2 2 1) 1 1 1
        (fun _ _ => (0, 0)) (fun _ _ => false)).2.2.length = 4 ∧
      (kawasaki_sweep_loop (build_lattice_u 2 2 1) 1 1 1
        (fun _ _ => (0, 0, 0, 0)) (fun _ _ => false)).2.length = 4 := by
  refine ⟨?_, ?_, ?_⟩ <;> rfl

/-! ### Claim C8: invalid dynamics name -/

/-- The per-temperature dispatch of `IsingPlotter.main`: an
`if dynamics == "glauber"` branch writing one Glauber record, an
`elif dynamics == "kawasaki"` branch writing one Kawasaki record, and
no `else` branch and no raise anywhere — the model is total and
error-free exactly as the source is.  Each record is tagged with the
branch that produced it and its temperature. -/
def sweep_driver_records (dynamics : String) (temps : List ℚ) :
    List (String × ℚ) :=
  temps.foldl
    (fun acc t =>
      if dynamics = "glauber" then acc ++ [("glauber", t)]
      else if dynamics = "kawasaki" then acc ++ [("kawasaki", t)]
      else acc)
    []

/-- C8 fails on the code: for a dynamics name that is neither
`"glauber"` nor `"kawasaki"` the driver's `if/elif` dispatch simply
never fires — the whole temperature scan runs performing no lattice
updates, emitting no output records, and surfacing no error of any
kind. -/
theorem invalid_dynamics_silently_no_records (dynamics : String)
    (temps : List ℚ) (hg : dynamics ≠ "glauber") (hk : dynamics ≠ "kawasaki") :
    sweep_driver_records dynamics temps = [] := by
  have aux : ∀ (ts : List ℚ) (acc : List (String × ℚ)),
      ts.foldl
        (fun acc t =>
          if dynamics = "glauber" then acc ++ [("glauber", t)]
          else if dynamics = "kawasaki" then acc ++ [("kawasaki", t)]
          else acc) acc = acc := by
    intro ts
    induction ts with
    | nil => intro acc; rfl
    | cons t ts ih =>
      intro acc
      rw [List.foldl_cons, if_neg hg, if_neg hk]
      exact ih acc
  rw [sweep_driver_records]
  exact aux temps []

/-- A misspelt dynamics name, as a user could put in the parameter
file. -/
def misspelledDynamics : String := "gluaber"

/-- Witness for C8's theorem at a concrete input: the misspelt name
matches neither branch and the one-temperature run writes nothing. -/
theorem invalid_dynamics_silently_no_records_witness :
    misspelledDynamics ≠ "glauber" ∧ misspelledDynamics ≠ "kawasaki" ∧
      sweep_driver_records misspelledDynamics [1] = [] :=
  ⟨by decide, by decide,
    invalid_dynamics_silently_no_records misspelledDynamics [1] (by decide) (by decide)⟩
